import Mathlib

/-!
Verification of the Diffie-Hellman key-exchange repository (Rust, `num_bigint`).

The Rust source is shallowly embedded: `BigInt` is modelled as `Int`,
Rust's `%` on `BigInt` (remainder truncated toward zero) as `Int.tmod`,
Rust's `/` on `BigInt` as `Int.tdiv`, byte vectors as `List Nat` whose
elements are below 256, and `usize`/`u32` arithmetic as `Nat` with the
truncating `as u32` cast made explicit where it occurs.
-/

/-! ### `mod_pow` (src/crypto/crypto.rs, lines 49-63)

```rust
fn mod_pow(base: &BigInt, exp: &BigInt, modulus: &BigInt) -> BigInt {
    let mut result = BigInt::one();
    let mut base = base % modulus;
    let mut exp = exp.clone();
    while exp > BigInt::zero() {
        if &exp % 2 == BigInt::one() {
            result = (result * &base) % modulus;
        }
        exp >>= 1;
        base = (&base * &base) % modulus;
    }
    result
}
```

The loop consumes the binary digits of `exp`; it runs only when `exp > 0`,
so the iteration count is `exp.toNat`'s bit pattern and the loop is the
recursion below on a `Nat` copy of the exponent.  `%` on `BigInt` is the
remainder of truncated division, i.e. `Int.tmod`.
-/

/-- One execution of the `while exp > 0` loop of `mod_pow`: `result` and
`base` are the mutable accumulators, `e` the remaining exponent. -/
def modPowLoop (modulus : Int) (result base : Int) (e : Nat) : Int :=
  if h : e = 0 then result
  else
    modPowLoop modulus
      (if e % 2 = 1 then Int.tmod (result * base) modulus else result)
      (Int.tmod (base * base) modulus) (e / 2)
termination_by e
decreasing_by exact Nat.div_lt_self (Nat.pos_of_ne_zero h) one_lt_two

/-- Structurally recursive form of `modPowLoop`, indexed by a fuel bound on
the number of iterations.  The exponent at least halves every iteration, so
its own value is always enough fuel; the fuel-exhausted branch is
unreachable on every call made below (`modPowFuel_eq_modPowLoop`). -/
def modPowFuel (modulus : Int) : Nat → Int → Int → Nat → Int
  | 0, result, _, _ => result
  | fuel + 1, result, base, e =>
    if e = 0 then result
    else
      modPowFuel modulus fuel
        (if e % 2 = 1 then Int.tmod (result * base) modulus else result)
        (Int.tmod (base * base) modulus) (e / 2)

/-- `mod_pow` from src/crypto/crypto.rs.  The initial `base % modulus` is
`Int.tmod`; a non-positive `exp` skips the loop, which is what `Int.toNat`
gives; the exponent itself serves as the loop-iteration fuel. -/
def mod_pow (base exp modulus : Int) : Int :=
  modPowFuel modulus exp.toNat 1 (Int.tmod base modulus) exp.toNat

/-- `compute_public_key` from src/crypto/crypto.rs, lines 145-147:
`mod_pow(g, secret_key, p)`. -/
def compute_public_key (secret_key g p : Int) : Int :=
  mod_pow g secret_key p

/-- Modelled from the spec: the naive reference for `mod_pow` — multiply
`base` together `exp` times starting from 1, then reduce with the same `%`
operator the Rust code uses (`BigInt` remainder, truncated toward zero). -/
def naive_mod_pow (base : Int) (exp : Nat) (modulus : Int) : Int :=
  Int.tmod ((List.range exp).foldl (fun acc _ => acc * base) 1) modulus

theorem modPowLoop_zero (m r b : Int) : modPowLoop m r b 0 = r := by
  unfold modPowLoop; simp

theorem modPowLoop_ne_zero (m r b : Int) (e : Nat) (h : e ≠ 0) :
    modPowLoop m r b e =
      modPowLoop m (if e % 2 = 1 then Int.tmod (r * b) m else r)
        (Int.tmod (b * b) m) (e / 2) := by
  conv_lhs => unfold modPowLoop
  simp [h]

theorem modPowFuel_eq_modPowLoop (m : Int) :
    ∀ (fuel e : Nat), e ≤ fuel → ∀ r b : Int,
      modPowFuel m fuel r b e = modPowLoop m r b e := by
  intro fuel
  induction fuel with
  | zero =>
    intro e he r b
    have : e = 0 := Nat.le_zero.mp he
    subst this
    rw [modPowLoop_zero]
    rfl
  | succ f ihf =>
    intro e he r b
    rcases Nat.eq_zero_or_pos e with h0 | h0
    · subst h0
      rw [modPowLoop_zero]
      rfl
    · have hne : e ≠ 0 := Nat.pos_iff_ne_zero.mp h0
      rw [modPowLoop_ne_zero _ _ _ _ hne]
      show modPowFuel m (f + 1) r b e = _
      unfold modPowFuel
      rw [if_neg hne]
      exact ihf (e / 2) (by omega) _ _

theorem mod_pow_eq_loop (b exp m : Int) :
    mod_pow b exp m = modPowLoop m 1 (Int.tmod b m) exp.toNat :=
  modPowFuel_eq_modPowLoop m exp.toNat exp.toNat le_rfl 1 (Int.tmod b m)

theorem tmod_neg_left (a b : Int) : Int.tmod (-a) b = -Int.tmod a b := by
  rw [Int.tmod_def, Int.tmod_def, Int.neg_tdiv]
  ring

theorem tmod_eq_self_of_abs_lt {x m : Int} (h1 : -m < x) (h2 : x < m) :
    Int.tmod x m = x := by
  rcases le_or_lt 0 x with hx | hx
  · exact Int.tmod_eq_of_lt hx h2
  · have : Int.tmod (-(-x)) m = -Int.tmod (-x) m := tmod_neg_left (-x) m
    rw [neg_neg] at this
    rw [this, Int.tmod_eq_of_lt (by omega) (by omega)]
    omega

theorem tmod_nonpos {a : Int} (b : Int) (h : a ≤ 0) : Int.tmod a b ≤ 0 := by
  have := @Int.tmod_nonneg (-a) b (by omega)
  rw [tmod_neg_left] at this
  omega

/-- The loop invariant on non-negative, reduced accumulators: the result is
the fully reduced `r * b ^ e`. -/
theorem modPowLoop_eq_emod {m : Int} (hm : 0 < m) :
    ∀ (e : Nat) (r b : Int), 0 ≤ r → r < m → 0 ≤ b → b < m →
      modPowLoop m r b e = (r * b ^ e) % m := by
  intro e
  induction e using Nat.strong_induction_on with
  | _ e ih =>
    intro r b hr0 hrm hb0 hbm
    rcases Nat.eq_zero_or_pos e with he | he
    · subst he
      rw [modPowLoop_zero, pow_zero, mul_one, Int.emod_eq_of_lt hr0 hrm]
    · have hne : e ≠ 0 := Nat.pos_iff_ne_zero.mp he
      rw [modPowLoop_ne_zero _ _ _ _ hne]
      have hbb : Int.tmod (b * b) m = (b * b) % m :=
        Int.tmod_eq_emod (by positivity) (le_of_lt hm)
      have hrec := ih (e / 2) (Nat.div_lt_self he one_lt_two)
      have hb' : 0 ≤ (b * b) % m := Int.emod_nonneg _ (by omega)
      have hb'' : (b * b) % m < m := Int.emod_lt_of_pos _ hm
      have key : ∀ r' : Int, r' % m = (r * b ^ (e % 2)) % m → 0 ≤ r' → r' < m →
          modPowLoop m r' ((b * b) % m) (e / 2) = (r * b ^ e) % m := by
        intro r' hr' h0 h1
        rw [hrec r' _ h0 h1 hb' hb'']
        have c1 : Int.ModEq m r' (r * b ^ (e % 2)) := hr'
        have c2 : Int.ModEq m ((b * b) % m) (b * b) := Int.emod_emod_of_dvd _ dvd_rfl
        have h2 : (r' * ((b * b) % m) ^ (e / 2)) % m
            = (r * b ^ (e % 2) * (b * b) ^ (e / 2)) % m :=
          (c1.mul (c2.pow _)).eq
        rw [h2]
        congr 1
        rw [← pow_two, ← pow_mul, mul_assoc, ← pow_add, Nat.mod_add_div]
      rcases Nat.even_or_odd e with heven | hodd
      · have he2 : e % 2 = 0 := Nat.even_iff.mp heven
        have h2 : ¬ (e % 2 = 1) := by omega
        rw [hbb, if_neg h2]
        exact key r (by rw [Nat.even_iff.mp heven, pow_zero, mul_one]) hr0 hrm
      · have h2 : e % 2 = 1 := Nat.odd_iff.mp hodd
        rw [hbb, if_pos h2]
        have hrb : Int.tmod (r * b) m = (r * b) % m :=
          Int.tmod_eq_emod (by positivity) (le_of_lt hm)
        refine key _ ?_ (hrb ▸ Int.emod_nonneg _ (by omega))
          (hrb ▸ Int.emod_lt_of_pos _ hm)
        rw [hrb, Int.emod_emod_of_dvd _ dvd_rfl, h2, pow_one]

/-- With modulus 1 every reduction step collapses to 0, and for a non-zero
exponent the final loop iteration (where the remaining exponent is 1)
always multiplies into the accumulator, so the loop returns 0. -/
theorem modPowLoop_one (e : Nat) : ∀ r b : Int, e ≠ 0 → modPowLoop 1 r b e = 0 := by
  induction e using Nat.strong_induction_on with
  | _ e ih =>
    intro r b hne
    rw [modPowLoop_ne_zero _ _ _ _ hne]
    rcases Nat.eq_zero_or_pos (e / 2) with h2 | h2
    · have h1 : e % 2 = 1 := by omega
      rw [if_pos h1, h2, modPowLoop_zero, Int.tmod_one]
    · exact ih (e / 2) (Nat.div_lt_self (Nat.pos_of_ne_zero hne) one_lt_two) _ _ (by omega)

/-- Negating the accumulator negates the loop's result: the base updates are
unchanged, and `tmod` distributes over negation of its left argument. -/
theorem modPowLoop_neg (m : Int) (e : Nat) : ∀ r b : Int,
    modPowLoop m (-r) b e = -modPowLoop m r b e := by
  induction e using Nat.strong_induction_on with
  | _ e ih =>
    intro r b
    rcases Nat.eq_zero_or_pos e with he | he
    · subst he; rw [modPowLoop_zero, modPowLoop_zero]
    · have hne : e ≠ 0 := Nat.pos_iff_ne_zero.mp he
      rw [modPowLoop_ne_zero _ _ _ _ hne, modPowLoop_ne_zero _ r _ _ hne]
      have ihh := ih (e / 2) (Nat.div_lt_self he one_lt_two)
      rcases Nat.decEq (e % 2) 1 with h1 | h1
      · rw [if_neg h1, if_neg h1, ihh]
      · rw [if_pos h1, if_pos h1, ← ihh, neg_mul, tmod_neg_left]

/-- `mod_pow` on a non-negative base and modulus at least 2 computes the
Euclidean residue of `base ^ exp`. -/
theorem mod_pow_eq_emod {b m : Int} (e : Nat) (hb : 0 ≤ b) (hm : 2 ≤ m) :
    mod_pow b (e : Int) m = (b ^ e) % m := by
  rw [mod_pow_eq_loop, Int.toNat_ofNat]
  have hb0 : Int.tmod b m = b % m := Int.tmod_eq_emod hb (by omega)
  rw [hb0, modPowLoop_eq_emod (by omega) e 1 (b % m) (by omega) (by omega)
    (Int.emod_nonneg _ (by omega)) (Int.emod_lt_of_pos _ (by omega)), one_mul]
  exact ((Int.mod_modEq b m).pow e).eq

/-- `mod_pow` agrees with the truncated residue of `base ^ exp` for every
integer base, as long as we are not in the degenerate case
`exp = 0 ∧ modulus = 1` (where the unreduced accumulator 1 is returned). -/
theorem mod_pow_eq_tmod {b m : Int} (e : Nat) (hm : 1 ≤ m)
    (hdeg : e ≠ 0 ∨ 2 ≤ m) :
    mod_pow b (e : Int) m = Int.tmod (b ^ e) m := by
  rcases eq_or_lt_of_le hm with hm1 | hm2
  · -- modulus = 1: both sides are 0 (the exponent is non-zero here)
    have he : e ≠ 0 := by
      rcases hdeg with h | h
      · exact h
      · omega
    rw [← hm1, mod_pow_eq_loop, Int.toNat_ofNat, modPowLoop_one e _ _ he, Int.tmod_one]
  · have hm' : (2 : Int) ≤ m := hm2
    rcases le_or_lt 0 b with hb | hb
    · rw [Int.tmod_eq_emod (pow_nonneg hb e) (by omega)]
      exact mod_pow_eq_emod e hb hm'
    · -- negative base
      rcases Nat.eq_zero_or_pos e with he0 | hepos
      · subst he0
        rw [mod_pow_eq_loop, Int.toNat_ofNat, modPowLoop_zero, pow_zero,
          tmod_eq_self_of_abs_lt (by omega) (by omega)]
      · have hb0 : Int.tmod b m ≤ 0 := tmod_nonpos m (le_of_lt hb)
        rcases eq_or_lt_of_le hb0 with hz | hneg
        · -- b % m = 0, so m divides b and both sides are 0
          have hdvd : m ∣ b := Int.dvd_of_tmod_eq_zero hz
          rw [mod_pow_eq_loop, Int.toNat_ofNat, hz,
            modPowLoop_eq_emod (by omega) e 1 0 (by omega) (by omega) le_rfl (by omega),
            one_mul, zero_pow (Nat.pos_iff_ne_zero.mp hepos), Int.zero_emod,
            Int.tmod_eq_zero_of_dvd (dvd_pow hdvd (Nat.pos_iff_ne_zero.mp hepos))]
        · -- the reduced base is strictly negative
          have hne : e ≠ 0 := Nat.pos_iff_ne_zero.mp hepos
          have hbnd : -m < Int.tmod b m := by
            have h1 : Int.tmod (-b) m < m := Int.tmod_lt_of_pos (-b) (by omega)
            have h2 : Int.tmod (-b) m = -Int.tmod b m := tmod_neg_left b m
            omega
          set b0 := Int.tmod b m with hb0def
          have hmod : b0 % m = b % m := by
            have : Int.ModEq m b0 b := by
              have : b0 = b - m * (b.tdiv m) := by rw [hb0def, Int.tmod_def]
              rw [this]
              exact (Int.modEq_sub_fac _ (Int.ModEq.refl b))
            exact this.eq
          rw [mod_pow_eq_loop, Int.toNat_ofNat, modPowLoop_ne_zero _ _ _ _ hne]
          have hb1 : 0 ≤ (b0 * b0) % m := Int.emod_nonneg _ (by omega)
          have hb2 : (b0 * b0) % m < m := Int.emod_lt_of_pos _ (by omega)
          have hbbt : Int.tmod (b0 * b0) m = (b0 * b0) % m :=
            Int.tmod_eq_emod (mul_self_nonneg b0) (by omega)
          have hmq : Int.ModEq m b0 b := hmod
          have hcong : Int.ModEq m ((b0 * b0) % m) (b ^ 2) := by
            rw [pow_two]
            exact (Int.mod_modEq _ _).trans (hmq.mul hmq)
          rcases Nat.decEq (e % 2) 1 with h1 | h1
          · -- even exponent: the accumulator stays 1 and b ^ e is non-negative
            have he2 : e % 2 = 0 := by omega
            rw [if_neg h1, hbbt,
              modPowLoop_eq_emod (by omega) (e / 2) 1 _ (by omega) (by omega) hb1 hb2, one_mul]
            have hpow : b ^ e = (b ^ 2) ^ (e / 2) := by
              rw [← pow_mul]
              congr 1
              omega
            have hbe : 0 ≤ b ^ e := by
              rw [hpow]
              positivity
            rw [Int.tmod_eq_emod hbe (by omega), hpow]
            exact ((hcong.pow (e / 2))).eq
          · -- odd exponent: the accumulator becomes the negative reduced base
            rw [if_pos h1, hbbt, one_mul, tmod_eq_self_of_abs_lt hbnd (by omega)]
            have hmbpos : 0 ≤ -b0 := by omega
            have hstep : modPowLoop m b0 ((b0 * b0) % m) (e / 2)
                = -(((-b0) * ((b0 * b0) % m) ^ (e / 2)) % m) := by
              have hn := modPowLoop_neg m (e / 2) (-b0) ((b0 * b0) % m)
              rw [neg_neg] at hn
              rw [hn,
                modPowLoop_eq_emod (by omega) (e / 2) (-b0) _ hmbpos (by omega) hb1 hb2]
            rw [hstep]
            have hbe : b ^ e < 0 := Odd.pow_neg (Nat.odd_iff.mpr h1) hb
            have htm : Int.tmod (b ^ e) m = -(((-(b ^ e))) % m) := by
              rw [← neg_neg (b ^ e), tmod_neg_left, Int.tmod_eq_emod (by omega) (by omega),
                neg_neg]
            rw [htm]
            congr 1
            have hcomb : Int.ModEq m ((-b0) * ((b0 * b0) % m) ^ (e / 2))
                ((-b) * (b ^ 2) ^ (e / 2)) := (hmq.neg).mul (hcong.pow _)
            have hfinal : (-b) * (b ^ 2) ^ (e / 2) = -(b ^ e) := by
              rw [← pow_mul, neg_mul, ← pow_succ']
              congr 2
              omega
            rw [hcomb.eq, hfinal]

theorem foldl_mul_eq_pow (b : Int) (e : Nat) :
    (List.range e).foldl (fun acc _ => acc * b) 1 = b ^ e := by
  induction e with
  | zero => simp
  | succ n ihn => rw [List.range_succ, List.foldl_append, List.foldl_cons,
      List.foldl_nil, ihn, pow_succ]

theorem naive_mod_pow_eq (b : Int) (e : Nat) (m : Int) :
    naive_mod_pow b e m = Int.tmod (b ^ e) m := by
  rw [naive_mod_pow, foldl_mul_eq_pow]

/-- C9: For every base (of any sign) and every modulus `m ≥ 1`,
`mod_pow(base, 0, m)` returns exactly 1: the loop body never runs and the
initial accumulator is returned unreduced. -/
theorem mod_pow_zero_exponent (b m : Int) (_hm : 1 ≤ m) : mod_pow b 0 m = 1 := by
  rw [mod_pow_eq_loop, Int.toNat_zero, modPowLoop_zero]

theorem mod_pow_zero_exponent_witness :
    (1 : Int) ≤ 7 ∧ mod_pow (-5) 0 7 = 1 :=
  ⟨by norm_num, mod_pow_zero_exponent (-5) 7 (by norm_num)⟩

/-- C10: for every base `b ≥ 0`, exponent `e ≥ 1` and modulus `m ≥ 1` the
value of `mod_pow` lies in `[0, m)`: it is always strictly reduced below the
modulus.  (For `e = 0` the unreduced accumulator 1 escapes even when
`m = 1`, which is why `e ≥ 1` is required.) -/
theorem mod_pow_output_range (b e m : Int) (hb : 0 ≤ b) (he : 1 ≤ e)
    (hm : 1 ≤ m) : 0 ≤ mod_pow b e m ∧ mod_pow b e m < m := by
  obtain ⟨n, rfl⟩ := Int.eq_ofNat_of_zero_le (le_trans zero_le_one he)
  have hne : n ≠ 0 := by
    intro h
    subst h
    simp at he
  have := @mod_pow_eq_tmod b m n hm (Or.inl hne)
  rw [this]
  constructor
  · exact Int.tmod_nonneg m (pow_nonneg hb n)
  · exact Int.tmod_lt_of_pos _ (by omega)

theorem mod_pow_output_range_witness :
    (0 : Int) ≤ 6 ∧ (1 : Int) ≤ 4 ∧ (1 : Int) ≤ 5 ∧
      0 ≤ mod_pow 6 4 5 ∧ mod_pow 6 4 5 < 5 :=
  ⟨by norm_num, by norm_num, by norm_num, mod_pow_output_range 6 4 5 (by norm_num) (by norm_num) (by norm_num)⟩

/-- C1 (counterexample): with modulus `p = 1` and exponents `x = 0`, `y = 1`
the two sides of the shared-secret equation differ (`0 ≠ 1`), because
`mod_pow` with exponent 0 returns the unreduced accumulator 1 even
modulo 1.  So the claim is false as stated for `p ≥ 1`. -/
theorem shared_secret_agreement_fails_mod_one :
    ¬ (mod_pow (compute_public_key 0 0 1) 1 1
        = mod_pow (compute_public_key 1 0 1) 0 1) := by
  decide

/-- C1 (amended: modulus at least 2): for every modulus `p ≥ 2`, base
`g ≥ 0` and secret exponents `x, y ≥ 0`, both sides of the key exchange
derive the same shared secret:
`mod_pow(compute_public_key(x,g,p), y, p) = mod_pow(compute_public_key(y,g,p), x, p)`. -/
theorem shared_secret_agreement (p g x y : Int) (hp : 2 ≤ p) (hg : 0 ≤ g)
    (hx : 0 ≤ x) (hy : 0 ≤ y) :
    mod_pow (compute_public_key x g p) y p
      = mod_pow (compute_public_key y g p) x p := by
  obtain ⟨n, rfl⟩ := Int.eq_ofNat_of_zero_le hx
  obtain ⟨k, rfl⟩ := Int.eq_ofNat_of_zero_le hy
  unfold compute_public_key
  rw [mod_pow_eq_emod n hg hp, mod_pow_eq_emod k hg hp,
    mod_pow_eq_emod k (Int.emod_nonneg _ (by omega)) hp,
    mod_pow_eq_emod n (Int.emod_nonneg _ (by omega)) hp]
  have h1 : ((g ^ n % p) ^ k) % p = (g ^ (n * k)) % p := by
    rw [pow_mul]
    exact (((Int.mod_modEq (g ^ n) p).pow k)).eq
  have h2 : ((g ^ k % p) ^ n) % p = (g ^ (k * n)) % p := by
    rw [pow_mul]
    exact (((Int.mod_modEq (g ^ k) p).pow n)).eq
  rw [h1, h2, Nat.mul_comm]

theorem shared_secret_agreement_witness :
    (2 : Int) ≤ 23 ∧ (0 : Int) ≤ 5 ∧ (0 : Int) ≤ 6 ∧ (0 : Int) ≤ 7 ∧
      mod_pow (compute_public_key 6 5 23) 7 23
        = mod_pow (compute_public_key 7 5 23) 6 23 :=
  ⟨by norm_num, by norm_num, by norm_num, by norm_num,
    shared_secret_agreement 23 5 6 7 (by norm_num) (by norm_num) (by norm_num) (by norm_num)⟩

/-- C2 (counterexample): at `base = 0`, `exponent = 0`, `modulus = 1` the
code returns the unreduced accumulator 1, while naive repeated
multiplication reduced modulo 1 gives 0. -/
theorem mod_pow_naive_disagree_at_zero_one :
    ¬ (mod_pow 0 ((0 : Nat) : Int) 1 = naive_mod_pow 0 0 1) := by
  decide

/-- C2 (amended: all inputs except `exponent = 0 ∧ modulus = 1`): for every
integer base, every exponent `e ≥ 0` and every modulus `m ≥ 1`, except the
single degenerate combination `e = 0 ∧ m = 1`, `mod_pow` equals the naive
repeated-multiplication result reduced by the same `%` operator. -/
theorem mod_pow_matches_naive (b : Int) (e : Nat) (m : Int) (hm : 1 ≤ m)
    (hdeg : e ≠ 0 ∨ 2 ≤ m) :
    mod_pow b (e : Int) m = naive_mod_pow b e m := by
  rw [naive_mod_pow_eq]
  exact mod_pow_eq_tmod e hm hdeg

theorem mod_pow_matches_naive_witness :
    (1 : Int) ≤ 7 ∧ ((5 : Nat) ≠ 0 ∨ (2 : Int) ≤ 7) ∧
      mod_pow (-3) ((5 : Nat) : Int) 7 = naive_mod_pow (-3) 5 7 :=
  ⟨by norm_num, Or.inl (by norm_num),
    mod_pow_matches_naive (-3) 5 7 (by norm_num) (Or.inl (by norm_num))⟩

/-! ### Wire codec (src/structs/DH_Prot.rs)

Byte vectors are `List Nat` (each entry a `u8`, i.e. `< 256`; the encoder
only ever emits such entries).  `num_bigint`'s `to_bytes_be` returns the
big-endian magnitude of the integer, with `[0]` for zero; `from_bytes_be`
with sign `Plus` folds the bytes as base-256 digits.  The `as u32` cast of
the length in `serialize_bigint` truncates to 32 bits; extracting the four
big-endian bytes below performs exactly that truncation.
-/

/-- The five protocol message variants of `DHMessage` (src/structs/DH_Prot.rs). -/
inductive DHMessage where
  | ClientHello : DHMessage
  | ServerHello (p g : Int) : DHMessage
  | ClientPublicKey (x : Int) : DHMessage
  | ServerPublicKey (y : Int) : DHMessage
  | Done : DHMessage
deriving DecidableEq, Repr

/-- Minimal big-endian base-256 digits of a positive number (empty for 0),
as produced by `num_bigint`'s `BigUint::to_bytes_be` for non-zero values.
The first argument is iteration fuel; the number itself is always enough,
since the value shrinks by a factor of 256 each step. -/
def natToBytesBEAux : Nat → Nat → List Nat
  | 0, _ => []
  | _ + 1, 0 => []
  | fuel + 1, n => natToBytesBEAux fuel (n / 256) ++ [n % 256]

/-- `to_bytes_be` magnitude bytes: `num_bigint` returns `[0]` for zero and
the minimal big-endian digits otherwise. -/
def natToBytesBE (value : Nat) : List Nat :=
  if value = 0 then [0] else natToBytesBEAux value value

/-- `BigInt::from_bytes_be(Sign::Plus, bytes)`: big-endian base-256 fold. -/
def from_bytes_be (bytes : List Nat) : Nat :=
  bytes.foldl (fun acc b => acc * 256 + b) 0

/-- `(len as u32).to_be_bytes()`: the four big-endian bytes of the length,
which silently truncate any length of `2^32` or more. -/
def u32_to_be_bytes (len : Nat) : List Nat :=
  [len / 2 ^ 24 % 256, len / 2 ^ 16 % 256, len / 2 ^ 8 % 256, len % 256]

/-- `u32::from_be_bytes` on four bytes. -/
def u32_from_be_bytes (b0 b1 b2 b3 : Nat) : Nat :=
  ((b0 * 256 + b1) * 256 + b2) * 256 + b3

/-- `serialize_bigint` (src/structs/DH_Prot.rs, lines 91-96): append the
4-byte big-endian length of the magnitude, then the magnitude itself.  The
sign returned by `to_bytes_be` is discarded by the source (`value_bytes.1`),
so only `natAbs` is encoded. -/
def serialize_bigint (bytes : List Nat) (value : Int) : List Nat :=
  let value_bytes := natToBytesBE value.natAbs
  bytes ++ u32_to_be_bytes value_bytes.length ++ value_bytes

/-- `deserialize_bigint` (src/structs/DH_Prot.rs, lines 98-118). -/
def deserialize_bigint (bytes : List Nat) (cursor : Nat) : Option (Int × Nat) :=
  if cursor + 4 > bytes.length then none
  else
    let len := u32_from_be_bytes (bytes.getD cursor 0) (bytes.getD (cursor + 1) 0)
      (bytes.getD (cursor + 2) 0) (bytes.getD (cursor + 3) 0)
    if cursor + 4 + len > bytes.length then none
    else
      let value_bytes := (bytes.drop (cursor + 4)).take len
      some (((from_bytes_be value_bytes : Nat) : Int), cursor + 4 + len)

/-- `DHMessage::to_bytes` (src/structs/DH_Prot.rs, lines 33-58). -/
def DHMessage.to_bytes : DHMessage → List Nat
  | .ClientHello => [0]
  | .ServerHello p g => serialize_bigint (serialize_bigint [1] p) g
  | .ClientPublicKey x => serialize_bigint [2] x
  | .ServerPublicKey y => serialize_bigint [3] y
  | .Done => [4]

/-- `DHMessage::from_bytes` (src/structs/DH_Prot.rs, lines 61-87): empty
input and unrecognized tags yield `None`; the cursor starts at 1. -/
def DHMessage.from_bytes (bytes : List Nat) : Option DHMessage :=
  match bytes with
  | [] => none
  | t :: _ =>
    match t with
    | 0 => some .ClientHello
    | 1 =>
      match deserialize_bigint bytes 1 with
      | none => none
      | some (p, new_cursor) =>
        match deserialize_bigint bytes new_cursor with
        | none => none
        | some (g, _) => some (.ServerHello p g)
    | 2 =>
      match deserialize_bigint bytes 1 with
      | none => none
      | some (x, _) => some (.ClientPublicKey x)
    | 3 =>
      match deserialize_bigint bytes 1 with
      | none => none
      | some (y, _) => some (.ServerPublicKey y)
    | 4 => some .Done
    | _ => none

theorem natToBytesBEAux_fuel_irrel :
    ∀ (f1 f2 n : Nat), n ≤ f1 → n ≤ f2 → natToBytesBEAux f1 n = natToBytesBEAux f2 n := by
  intro f1
  induction f1 with
  | zero =>
    intro f2 n h1 _h2
    have : n = 0 := by omega
    subst this
    cases f2 <;> rfl
  | succ f ihf =>
    intro f2 n h1 h2
    cases n with
    | zero => cases f2 <;> rfl
    | succ k =>
      cases f2 with
      | zero => omega
      | succ f2' =>
        show natToBytesBEAux f ((k + 1) / 256) ++ [(k + 1) % 256]
          = natToBytesBEAux f2' ((k + 1) / 256) ++ [(k + 1) % 256]
        have hd : (k + 1) / 256 < k + 1 := Nat.div_lt_self (by omega) (by omega)
        rw [ihf f2' ((k + 1) / 256) (by omega) (by omega)]

theorem natToBytesBEAux_step (n : Nat) (hn : n ≠ 0) :
    natToBytesBEAux n n = natToBytesBEAux (n / 256) (n / 256) ++ [n % 256] := by
  obtain ⟨k, rfl⟩ : ∃ k, n = k + 1 := ⟨n - 1, by omega⟩
  show natToBytesBEAux k ((k + 1) / 256) ++ [(k + 1) % 256] = _
  have hd : (k + 1) / 256 < k + 1 := Nat.div_lt_self (by omega) (by omega)
  rw [natToBytesBEAux_fuel_irrel k ((k + 1) / 256) ((k + 1) / 256) (by omega) le_rfl]

theorem from_bytes_be_append_one (l : List Nat) (b : Nat) :
    from_bytes_be (l ++ [b]) = from_bytes_be l * 256 + b := by
  unfold from_bytes_be
  rw [List.foldl_append]
  rfl

/-- Decoding inverts encoding of magnitudes. -/
theorem from_bytes_be_natToBytesBE (n : Nat) : from_bytes_be (natToBytesBE n) = n := by
  have aux : ∀ k : Nat, from_bytes_be (natToBytesBEAux k k) = k := by
    intro k
    induction k using Nat.strong_induction_on with
    | _ k ih =>
      rcases Nat.eq_zero_or_pos k with h0 | hpos
      · subst h0; rfl
      · rw [natToBytesBEAux_step k (by omega), from_bytes_be_append_one,
          ih (k / 256) (Nat.div_lt_self hpos (by omega))]
        omega
  unfold natToBytesBE
  split
  · rename_i h
    subst h
    rfl
  · exact aux n

theorem u32_round_trip (L : Nat) (h : L < 2 ^ 32) :
    u32_from_be_bytes (L / 2 ^ 24 % 256) (L / 2 ^ 16 % 256) (L / 2 ^ 8 % 256)
      (L % 256) = L := by
  unfold u32_from_be_bytes
  omega

/-- The byte block that one `serialize_bigint` call appends. -/
def serInt (value : Int) : List Nat :=
  u32_to_be_bytes (natToBytesBE value.natAbs).length ++ natToBytesBE value.natAbs

theorem serialize_bigint_eq (bytes : List Nat) (v : Int) :
    serialize_bigint bytes v = bytes ++ serInt v := by
  unfold serialize_bigint serInt
  rw [List.append_assoc]

theorem serInt_length (v : Int) :
    (serInt v).length = 4 + (natToBytesBE v.natAbs).length := by
  unfold serInt u32_to_be_bytes
  simp
  omega

/-- Deserializing at cursor `pre.length` only looks at the suffix: the
result is the cursor-shifted result of deserializing the suffix at 0. -/
theorem deserialize_bigint_shift (pre rest : List Nat) :
    deserialize_bigint (pre ++ rest) pre.length
      = (deserialize_bigint rest 0).map (fun vc => (vc.1, vc.2 + pre.length)) := by
  unfold deserialize_bigint
  simp only [Nat.zero_add]
  have hlen : (pre ++ rest).length = pre.length + rest.length := List.length_append _ _
  have hget : ∀ i : Nat, (pre ++ rest).getD (pre.length + i) 0 = rest.getD i 0 := by
    intro i
    rw [List.getD_eq_getElem?_getD, List.getD_eq_getElem?_getD,
      @List.getElem?_append_right _ pre rest (pre.length + i) (by omega),
      Nat.add_sub_cancel_left]
  have hget0 : (pre ++ rest).getD pre.length 0 = rest.getD 0 0 := by
    have h := hget 0
    rwa [Nat.add_zero] at h
  rcases Nat.lt_or_ge rest.length 4 with hshort | hlong
  · have hc1 : pre.length + 4 > (pre ++ rest).length := by omega
    have hc2 : 4 > rest.length := by omega
    rw [if_pos hc1, if_pos hc2, Option.map_none']
  · have hc1 : ¬ (pre.length + 4 > (pre ++ rest).length) := by omega
    have hc2 : ¬ (4 > rest.length) := by omega
    rw [if_neg hc1, if_neg hc2, hget0, hget 1, hget 2, hget 3]
    set len := u32_from_be_bytes (rest.getD 0 0) (rest.getD 1 0)
      (rest.getD 2 0) (rest.getD 3 0) with hlendef
    rcases Nat.lt_or_ge rest.length (4 + len) with hover | hok
    · have hc3 : pre.length + 4 + len > (pre ++ rest).length := by omega
      have hc4 : 4 + len > rest.length := by omega
      rw [if_pos hc3, if_pos hc4, Option.map_none']
    · have hc3 : ¬ (pre.length + 4 + len > (pre ++ rest).length) := by omega
      have hc4 : ¬ (4 + len > rest.length) := by omega
      rw [if_neg hc3, if_neg hc4]
      have hdrop : (pre ++ rest).drop (pre.length + 4) = rest.drop 4 :=
        List.drop_append 4
      rw [hdrop, Option.map_some']
      simp only [Option.some.injEq, Prod.mk.injEq]
      exact ⟨by trivial, by omega⟩

/-- Deserializing a well-formed integer block at cursor 0 recovers the
magnitude, provided its length survives the `u32` cast. -/
theorem deserialize_serInt (v : Int) (post : List Nat)
    (hlen : (natToBytesBE v.natAbs).length < 2 ^ 32) :
    deserialize_bigint (serInt v ++ post) 0
      = some ((v.natAbs : Int), 4 + (natToBytesBE v.natAbs).length) := by
  set mag := natToBytesBE v.natAbs with hmag
  set L := mag.length with hL
  have hlen4 : (u32_to_be_bytes L).length = 4 := rfl
  have htot : (serInt v ++ post).length = 4 + L + post.length := by
    rw [List.length_append, serInt_length]
  have hget : ∀ i : Nat, i < 4 →
      (serInt v ++ post).getD i 0 = (u32_to_be_bytes L).getD i 0 := by
    intro i hi
    rw [List.getD_eq_getElem?_getD, List.getD_eq_getElem?_getD,
      @List.getElem?_append_left _ (serInt v) post i (by rw [serInt_length]; omega)]
    unfold serInt
    rw [@List.getElem?_append_left _ (u32_to_be_bytes L) mag i (by rw [hlen4]; omega)]
  unfold deserialize_bigint
  simp only [Nat.zero_add]
  have hc1 : ¬ (4 > (serInt v ++ post).length) := by omega
  rw [if_neg hc1, hget 0 (by omega), hget 1 (by omega), hget 2 (by omega),
    hget 3 (by omega)]
  have hu32 : u32_from_be_bytes ((u32_to_be_bytes L).getD 0 0)
      ((u32_to_be_bytes L).getD 1 0) ((u32_to_be_bytes L).getD 2 0)
      ((u32_to_be_bytes L).getD 3 0) = L := by
    unfold u32_to_be_bytes
    simp only [List.getD]
    exact u32_round_trip L hlen
  rw [hu32]
  have hc2 : ¬ (4 + L > (serInt v ++ post).length) := by omega
  rw [if_neg hc2]
  have hdrop : (serInt v ++ post).drop 4 = mag ++ post := by
    unfold serInt
    rw [List.append_assoc]
    exact List.drop_left' hlen4
  rw [hdrop, List.take_left' hL.symm]
  rw [hmag, from_bytes_be_natToBytesBE]

theorem deserialize_serInt_nil (v : Int)
    (hlen : (natToBytesBE v.natAbs).length < 2 ^ 32) :
    deserialize_bigint (serInt v) 0
      = some ((v.natAbs : Int), 4 + (natToBytesBE v.natAbs).length) := by
  have h := deserialize_serInt v [] hlen
  rwa [List.append_nil] at h

/-- Whether one integer field survives the codec: non-negative (the sign is
discarded by `serialize_bigint`) with a magnitude whose byte count fits the
truncating `as u32` cast of the length prefix. -/
def encodableInt (v : Int) : Bool :=
  decide (0 ≤ v) && decide ((natToBytesBE v.natAbs).length < 2 ^ 32)

/-- All integer fields of the message survive the codec. -/
def DHMessage.encodable : DHMessage → Bool
  | .ClientHello => true
  | .ServerHello p g => encodableInt p && encodableInt g
  | .ClientPublicKey x => encodableInt x
  | .ServerPublicKey y => encodableInt y
  | .Done => true

/-- C3 (amended: fields of encodable size): for every message whose integer
fields are non-negative and whose magnitudes occupy fewer than `2^32`
bytes, `from_bytes (to_bytes m) = Some m`: same variant, same field
values.  (This covers the value 0, encoded as the single byte `0x00`, and
all multi-byte magnitudes.) -/
theorem from_bytes_to_bytes (msg : DHMessage) (h : msg.encodable = true) :
    DHMessage.from_bytes msg.to_bytes = some msg := by
  cases msg with
  | ClientHello => rfl
  | Done => rfl
  | ClientPublicKey x =>
    simp only [DHMessage.encodable, encodableInt, Bool.and_eq_true,
      decide_eq_true_eq] at h
    obtain ⟨hx0, hxlen⟩ := h
    have hb : DHMessage.to_bytes (.ClientPublicKey x) = 2 :: serInt x := by
      show serialize_bigint [2] x = _
      rw [serialize_bigint_eq]
      rfl
    have hdes : deserialize_bigint ((2 : Nat) :: serInt x) 1
        = some ((x.natAbs : Int), 4 + (natToBytesBE x.natAbs).length + 1) := by
      have hs := deserialize_bigint_shift [2] (serInt x)
      simp only [List.length_cons, List.length_nil, Nat.zero_add] at hs
      rw [show ((2 : Nat) :: serInt x) = [2] ++ serInt x from rfl, hs,
        deserialize_serInt_nil x hxlen, Option.map_some']
    rw [hb]
    simp [DHMessage.from_bytes, hdes, Int.natAbs_of_nonneg hx0]
  | ServerPublicKey y =>
    simp only [DHMessage.encodable, encodableInt, Bool.and_eq_true,
      decide_eq_true_eq] at h
    obtain ⟨hy0, hylen⟩ := h
    have hb : DHMessage.to_bytes (.ServerPublicKey y) = 3 :: serInt y := by
      show serialize_bigint [3] y = _
      rw [serialize_bigint_eq]
      rfl
    have hdes : deserialize_bigint ((3 : Nat) :: serInt y) 1
        = some ((y.natAbs : Int), 4 + (natToBytesBE y.natAbs).length + 1) := by
      have hs := deserialize_bigint_shift [3] (serInt y)
      simp only [List.length_cons, List.length_nil, Nat.zero_add] at hs
      rw [show ((3 : Nat) :: serInt y) = [3] ++ serInt y from rfl, hs,
        deserialize_serInt_nil y hylen, Option.map_some']
    rw [hb]
    simp [DHMessage.from_bytes, hdes, Int.natAbs_of_nonneg hy0]
  | ServerHello p g =>
    simp only [DHMessage.encodable, encodableInt, Bool.and_eq_true,
      decide_eq_true_eq] at h
    obtain ⟨⟨hp0, hplen⟩, hg0, hglen⟩ := h
    have hb : DHMessage.to_bytes (.ServerHello p g)
        = 1 :: (serInt p ++ serInt g) := by
      show serialize_bigint (serialize_bigint [1] p) g = _
      rw [serialize_bigint_eq, serialize_bigint_eq]
      rfl
    have hdes1 : deserialize_bigint ((1 : Nat) :: (serInt p ++ serInt g)) 1
        = some ((p.natAbs : Int), 4 + (natToBytesBE p.natAbs).length + 1) := by
      have hs := deserialize_bigint_shift [1] (serInt p ++ serInt g)
      simp only [List.length_cons, List.length_nil, Nat.zero_add] at hs
      rw [show ((1 : Nat) :: (serInt p ++ serInt g)) = [1] ++ (serInt p ++ serInt g)
          from rfl, hs, deserialize_serInt p (serInt g) hplen, Option.map_some']
    have hdes2 : deserialize_bigint ((1 : Nat) :: (serInt p ++ serInt g))
        (4 + (natToBytesBE p.natAbs).length + 1)
        = some ((g.natAbs : Int),
            4 + (natToBytesBE g.natAbs).length + (4 + (natToBytesBE p.natAbs).length + 1)) := by
      have hs := deserialize_bigint_shift ((1 : Nat) :: serInt p) (serInt g)
      rw [List.cons_append] at hs
      simp only [List.length_cons, serInt_length] at hs
      rw [hs, deserialize_serInt_nil g hglen, Option.map_some']
    rw [hb]
    simp [DHMessage.from_bytes, hdes1, hdes2, Int.natAbs_of_nonneg hp0,
      Int.natAbs_of_nonneg hg0]

theorem from_bytes_to_bytes_witness :
    (DHMessage.ServerHello 0 65536).encodable = true ∧
      DHMessage.from_bytes (DHMessage.to_bytes (.ServerHello 0 65536))
        = some (.ServerHello 0 65536) :=
  ⟨by decide, from_bytes_to_bytes (.ServerHello 0 65536) (by decide)⟩

theorem natToBytesBE_256_pow (k : Nat) :
    natToBytesBE (256 ^ k) = 1 :: List.replicate k 0 := by
  have aux : ∀ j : Nat, natToBytesBEAux (256 ^ j) (256 ^ j)
      = 1 :: List.replicate j 0 := by
    intro j
    induction j with
    | zero => rfl
    | succ i ihi =>
      have hne : 256 ^ (i + 1) ≠ 0 := (Nat.pos_pow_of_pos _ (by omega)).ne'
      rw [natToBytesBEAux_step _ hne]
      have hdiv : 256 ^ (i + 1) / 256 = 256 ^ i := by
        rw [pow_succ]
        exact Nat.mul_div_cancel _ (by omega)
      have hmod : 256 ^ (i + 1) % 256 = 0 := by
        rw [pow_succ]
        exact Nat.mul_mod_left _ _
      rw [hdiv, hmod, ihi, List.replicate_succ']
      rfl
  unfold natToBytesBE
  rw [if_neg (Nat.pos_pow_of_pos _ (by omega)).ne']
  exact aux k

/-- The length prefix written for the `2 ^ 32 + 1`-byte magnitude of
`256 ^ 2 ^ 32` after the `as u32` cast: the four big-endian bytes encode 1. -/
theorem u32_to_be_bytes_truncates : u32_to_be_bytes (2 ^ 32 + 1) = [0, 0, 0, 1] := by
  unfold u32_to_be_bytes
  norm_num

theorem from_bytes_cons_two (rest : List Nat) :
    DHMessage.from_bytes (2 :: rest)
      = match deserialize_bigint (2 :: rest) 1 with
        | none => none
        | some (x, _) => some (.ClientPublicKey x) := rfl

theorem huge_block_length :
    (([0, 0, 0, 1] ++ (1 :: List.replicate (2 ^ 32) 0)) : List Nat).length
      = 4 + (2 ^ 32 + 1) := by
  have h4len : (([0, 0, 0, 1] : List Nat)).length = 4 := rfl
  rw [List.length_append, h4len, List.length_cons, List.length_replicate]

/-- Deserializing the mis-labelled block of `256 ^ 2 ^ 32`: the header says
one byte, so only the leading magnitude byte 1 is read. -/
theorem deserialize_huge_block :
    deserialize_bigint ([0, 0, 0, 1] ++ (1 :: List.replicate (2 ^ 32) 0)) 0
      = some ((1 : Int), 5) := by
  unfold deserialize_bigint
  simp only [Nat.zero_add]
  rw [if_neg (by rw [huge_block_length]; omega)]
  have hg0 : (([0, 0, 0, 1] ++ (1 :: List.replicate (2 ^ 32) 0)) : List Nat).getD 0 0
      = 0 := rfl
  have hg1 : (([0, 0, 0, 1] ++ (1 :: List.replicate (2 ^ 32) 0)) : List Nat).getD 1 0
      = 0 := rfl
  have hg2 : (([0, 0, 0, 1] ++ (1 :: List.replicate (2 ^ 32) 0)) : List Nat).getD 2 0
      = 0 := rfl
  have hg3 : (([0, 0, 0, 1] ++ (1 :: List.replicate (2 ^ 32) 0)) : List Nat).getD 3 0
      = 1 := rfl
  rw [hg0, hg1, hg2, hg3]
  have hlen1 : u32_from_be_bytes 0 0 0 1 = 1 := rfl
  rw [hlen1, if_neg (by rw [huge_block_length]; omega)]
  have hdrop : (([0, 0, 0, 1] ++ (1 :: List.replicate (2 ^ 32) 0)) : List Nat).drop 4
      = 1 :: List.replicate (2 ^ 32) 0 := rfl
  rw [hdrop]
  rfl

theorem deserialize_huge_message :
    deserialize_bigint
      ((2 : Nat) :: ([0, 0, 0, 1] ++ (1 :: List.replicate (2 ^ 32) 0))) 1
      = some ((1 : Int), 6) := by
  have hs := deserialize_bigint_shift [2] ([0, 0, 0, 1] ++ (1 :: List.replicate (2 ^ 32) 0))
  simp only [List.length_cons, List.length_nil, Nat.zero_add] at hs
  rw [show ((2 : Nat) :: ([0, 0, 0, 1] ++ (1 :: List.replicate (2 ^ 32) 0)))
      = [2] ++ ([0, 0, 0, 1] ++ (1 :: List.replicate (2 ^ 32) 0)) from rfl, hs,
    deserialize_huge_block, Option.map_some']

theorem to_bytes_huge_field :
    DHMessage.to_bytes (.ClientPublicKey ((256 ^ 2 ^ 32 : Nat) : Int))
      = 2 :: ([0, 0, 0, 1] ++ (1 :: List.replicate (2 ^ 32) 0)) := by
  have habs : ((256 ^ 2 ^ 32 : Nat) : Int).natAbs = 256 ^ 2 ^ 32 := Int.natAbs_ofNat _
  have hmag : natToBytesBE ((256 ^ 2 ^ 32 : Nat) : Int).natAbs
      = 1 :: List.replicate (2 ^ 32) 0 := by
    rw [habs, natToBytesBE_256_pow]
  have hmaglen : (natToBytesBE ((256 ^ 2 ^ 32 : Nat) : Int).natAbs).length
      = 2 ^ 32 + 1 := by
    rw [hmag, List.length_cons, List.length_replicate]
  have hser : serInt ((256 ^ 2 ^ 32 : Nat) : Int)
      = [0, 0, 0, 1] ++ (1 :: List.replicate (2 ^ 32) 0) := by
    unfold serInt
    rw [hmaglen, hmag, u32_to_be_bytes_truncates]
  show serialize_bigint [2] _ = _
  rw [serialize_bigint_eq, hser]
  rfl

/-- C3 (counterexample): round-trip fails for a non-negative field whose
magnitude occupies `2 ^ 32 + 1` bytes: the `as u32` cast truncates the
length prefix to 1, so decoding returns the fabricated value 1 instead of
`256 ^ 2 ^ 32`.  The claim is false as stated over all non-negative fields. -/
theorem codec_round_trip_fails_on_huge_field :
    0 ≤ ((256 ^ 2 ^ 32 : Nat) : Int) ∧
      DHMessage.from_bytes
          (DHMessage.to_bytes (.ClientPublicKey ((256 ^ 2 ^ 32 : Nat) : Int)))
        ≠ some (.ClientPublicKey ((256 ^ 2 ^ 32 : Nat) : Int)) := by
  refine ⟨Int.natCast_nonneg _, ?_⟩
  rw [to_bytes_huge_field, from_bytes_cons_two, deserialize_huge_message]
  show some (DHMessage.ClientPublicKey 1)
      ≠ some (.ClientPublicKey ((256 ^ 2 ^ 32 : Nat) : Int))
  intro hcontra
  injection hcontra with h1
  injection h1 with h2
  have h3 : (1 : Nat) < 256 ^ 2 ^ 32 := Nat.one_lt_pow (by norm_num) (by norm_num)
  have h4 : (1 : Int) < ((256 ^ 2 ^ 32 : Nat) : Int) := by exact_mod_cast h3
  exact absurd h2 (ne_of_lt h4)

/-- If a length-prefixed block deserializes successfully, then truncating
the buffer strictly before the block's end makes deserialization fail, and
truncating at or after the end leaves the result unchanged. -/
theorem deserialize_bigint_take (bytes : List Nat) (c : Nat) (v : Int) (c' : Nat)
    (h : deserialize_bigint bytes c = some (v, c')) (k : Nat) :
    (k < c' → deserialize_bigint (bytes.take k) c = none) ∧
    (c' ≤ k → deserialize_bigint (bytes.take k) c = some (v, c')) := by
  unfold deserialize_bigint at h
  by_cases h1 : c + 4 > bytes.length
  · rw [if_pos h1] at h
    exact absurd h (by simp)
  rw [if_neg h1] at h
  simp only at h
  set len := u32_from_be_bytes (bytes.getD c 0) (bytes.getD (c + 1) 0)
    (bytes.getD (c + 2) 0) (bytes.getD (c + 3) 0) with hlendef
  by_cases h2 : c + 4 + len > bytes.length
  · rw [if_pos h2] at h
    exact absurd h (by simp)
  rw [if_neg h2] at h
  injection h with hpair
  injection hpair with hv hc'
  have hktlen : ∀ j : Nat, (bytes.take j).length = min j bytes.length :=
    fun j => List.length_take j bytes
  have hgtake : ∀ (j i : Nat), i < j → (bytes.take j).getD i 0 = bytes.getD i 0 := by
    intro j i hij
    rw [List.getD_eq_getElem?_getD, List.getD_eq_getElem?_getD,
      List.getElem?_take_of_lt hij]
  constructor
  · intro hk
    unfold deserialize_bigint
    by_cases hk4 : c + 4 > (bytes.take k).length
    · rw [if_pos hk4]
    · rw [if_neg hk4]
      have hkk : c + 4 ≤ k := by
        rw [hktlen] at hk4
        omega
      rw [hgtake k c (by omega), hgtake k (c + 1) (by omega),
        hgtake k (c + 2) (by omega), hgtake k (c + 3) (by omega), ← hlendef]
      rw [if_pos (by rw [hktlen]; omega)]
  · intro hk
    have hkk : c + 4 + len ≤ k := by omega
    unfold deserialize_bigint
    rw [if_neg (by rw [hktlen]; omega)]
    rw [hgtake k c (by omega), hgtake k (c + 1) (by omega),
      hgtake k (c + 2) (by omega), hgtake k (c + 3) (by omega), ← hlendef]
    rw [if_neg (by rw [hktlen]; omega)]
    have hval : ((bytes.take k).drop (c + 4)).take len
        = (bytes.drop (c + 4)).take len := by
      rw [List.drop_take, List.take_take, Nat.min_eq_left (by omega)]
    rw [hval]
    exact congrArg some (Prod.ext hv hc')

theorem from_bytes_cons_zero (rest : List Nat) :
    DHMessage.from_bytes (0 :: rest) = some .ClientHello := rfl

theorem from_bytes_cons_one (rest : List Nat) :
    DHMessage.from_bytes (1 :: rest)
      = match deserialize_bigint (1 :: rest) 1 with
        | none => none
        | some (p, new_cursor) =>
          match deserialize_bigint (1 :: rest) new_cursor with
          | none => none
          | some (g, _) => some (.ServerHello p g) := rfl

theorem from_bytes_cons_three (rest : List Nat) :
    DHMessage.from_bytes (3 :: rest)
      = match deserialize_bigint (3 :: rest) 1 with
        | none => none
        | some (y, _) => some (.ServerPublicKey y) := rfl

theorem from_bytes_cons_four (rest : List Nat) :
    DHMessage.from_bytes (4 :: rest) = some .Done := rfl

/-- The first length-prefixed block after a tag byte decodes to the
magnitude of the value it was built from. -/
theorem deserialize_cons_serInt (t : Nat) (v : Int) (post : List Nat)
    (hlen : (natToBytesBE v.natAbs).length < 2 ^ 32) :
    deserialize_bigint (t :: (serInt v ++ post)) 1
      = some ((v.natAbs : Int), 4 + (natToBytesBE v.natAbs).length + 1) := by
  have hs := deserialize_bigint_shift [t] (serInt v ++ post)
  simp only [List.length_cons, List.length_nil, Nat.zero_add] at hs
  rw [show (t :: (serInt v ++ post)) = [t] ++ (serInt v ++ post) from rfl, hs,
    deserialize_serInt v post hlen, Option.map_some']

/-- The second length-prefixed block of a `ServerHello`-shaped buffer. -/
theorem deserialize_cons_serInt_second (t : Nat) (p g : Int)
    (hglen : (natToBytesBE g.natAbs).length < 2 ^ 32) :
    deserialize_bigint (t :: (serInt p ++ serInt g))
        (4 + (natToBytesBE p.natAbs).length + 1)
      = some ((g.natAbs : Int),
          4 + (natToBytesBE g.natAbs).length
            + (4 + (natToBytesBE p.natAbs).length + 1)) := by
  have hs := deserialize_bigint_shift (t :: serInt p) (serInt g)
  rw [List.cons_append] at hs
  simp only [List.length_cons, serInt_length] at hs
  rw [hs, deserialize_serInt_nil g hglen, Option.map_some']

theorem from_bytes_bad_tag (t : Nat) (rest : List Nat) (ht : 4 < t) :
    DHMessage.from_bytes (t :: rest) = none := by
  obtain ⟨s, rfl⟩ : ∃ s, t = s + 5 := ⟨t - 5, by omega⟩
  rfl

/-- C4 (amended: fields of encodable size): decoding any strict prefix of an
encoded message fails with `None` (the bounds checks catch cuts inside the
4-byte length field and short payloads), and any buffer whose first byte is
not one of the tags 0-4 decodes to `None`; the total model never panics and
never fabricates a message. -/
theorem from_bytes_rejects_malformed :
    (∀ msg : DHMessage, msg.encodable = true →
      ∀ k : Nat, k < msg.to_bytes.length →
        DHMessage.from_bytes (msg.to_bytes.take k) = none)
    ∧ ∀ (t : Nat) (rest : List Nat), 4 < t →
        DHMessage.from_bytes (t :: rest) = none := by
  constructor
  · intro msg h k hk
    cases msg with
    | ClientHello =>
      have hk' : k < 1 := hk
      have : k = 0 := by omega
      subst this
      rfl
    | Done =>
      have hk' : k < 1 := hk
      have : k = 0 := by omega
      subst this
      rfl
    | ClientPublicKey x =>
      simp only [DHMessage.encodable, encodableInt, Bool.and_eq_true,
        decide_eq_true_eq] at h
      obtain ⟨hx0, hxlen⟩ := h
      have hb : DHMessage.to_bytes (.ClientPublicKey x) = 2 :: serInt x := by
        show serialize_bigint [2] x = _
        rw [serialize_bigint_eq]
        rfl
      rw [hb] at hk ⊢
      have hlen : (2 :: serInt x).length = 4 + (natToBytesBE x.natAbs).length + 1 := by
        rw [List.length_cons, serInt_length]
      have hdes : deserialize_bigint (2 :: serInt x) 1
          = some ((x.natAbs : Int), 4 + (natToBytesBE x.natAbs).length + 1) := by
        conv_lhs => rw [show serInt x = serInt x ++ [] from (List.append_nil _).symm]
        exact deserialize_cons_serInt 2 x [] hxlen
      cases k with
      | zero => rfl
      | succ j =>
        have htk : (2 :: serInt x).take (j + 1) = 2 :: (serInt x).take j := rfl
        rw [htk, from_bytes_cons_two, ← htk,
          (deserialize_bigint_take _ _ _ _ hdes (j + 1)).1 (by rw [hlen] at hk; omega)]
    | ServerPublicKey y =>
      simp only [DHMessage.encodable, encodableInt, Bool.and_eq_true,
        decide_eq_true_eq] at h
      obtain ⟨hy0, hylen⟩ := h
      have hb : DHMessage.to_bytes (.ServerPublicKey y) = 3 :: serInt y := by
        show serialize_bigint [3] y = _
        rw [serialize_bigint_eq]
        rfl
      rw [hb] at hk ⊢
      have hlen : (3 :: serInt y).length = 4 + (natToBytesBE y.natAbs).length + 1 := by
        rw [List.length_cons, serInt_length]
      have hdes : deserialize_bigint (3 :: serInt y) 1
          = some ((y.natAbs : Int), 4 + (natToBytesBE y.natAbs).length + 1) := by
        conv_lhs => rw [show serInt y = serInt y ++ [] from (List.append_nil _).symm]
        exact deserialize_cons_serInt 3 y [] hylen
      cases k with
      | zero => rfl
      | succ j =>
        have htk : (3 :: serInt y).take (j + 1) = 3 :: (serInt y).take j := rfl
        rw [htk, from_bytes_cons_three, ← htk,
          (deserialize_bigint_take _ _ _ _ hdes (j + 1)).1 (by rw [hlen] at hk; omega)]
    | ServerHello p g =>
      simp only [DHMessage.encodable, encodableInt, Bool.and_eq_true,
        decide_eq_true_eq] at h
      obtain ⟨⟨hp0, hplen⟩, hg0, hglen⟩ := h
      have hb : DHMessage.to_bytes (.ServerHello p g)
          = 1 :: (serInt p ++ serInt g) := by
        show serialize_bigint (serialize_bigint [1] p) g = _
        rw [serialize_bigint_eq, serialize_bigint_eq]
        rfl
      rw [hb] at hk ⊢
      have hlen : (1 :: (serInt p ++ serInt g)).length
          = (4 + (natToBytesBE p.natAbs).length) + (4 + (natToBytesBE g.natAbs).length)
            + 1 := by
        rw [List.length_cons, List.length_append, serInt_length, serInt_length]
      have hdes1 := deserialize_cons_serInt 1 p (serInt g) hplen
      have hdes2 := deserialize_cons_serInt_second 1 p g hglen
      cases k with
      | zero => rfl
      | succ j =>
        have htk : (1 :: (serInt p ++ serInt g)).take (j + 1)
            = 1 :: (serInt p ++ serInt g).take j := rfl
        rw [htk, from_bytes_cons_one, ← htk]
        by_cases hcase : j + 1 < 4 + (natToBytesBE p.natAbs).length + 1
        · rw [(deserialize_bigint_take _ _ _ _ hdes1 (j + 1)).1 hcase]
        · rw [(deserialize_bigint_take _ _ _ _ hdes1 (j + 1)).2 (by omega)]
          have ht2 := (deserialize_bigint_take _ _ _ _ hdes2 (j + 1)).1
            (by rw [hlen] at hk; omega)
          simp only [ht2]
  · intro t rest ht
    exact from_bytes_bad_tag t rest ht

theorem from_bytes_rejects_malformed_witness :
    DHMessage.from_bytes ((DHMessage.to_bytes (.ClientPublicKey 5)).take 3) = none
    ∧ DHMessage.from_bytes (9 :: [1, 2, 3]) = none :=
  ⟨from_bytes_rejects_malformed.1 (.ClientPublicKey 5) (by decide) 3 (by decide),
   from_bytes_rejects_malformed.2 9 [1, 2, 3] (by decide)⟩

/-- C4 (counterexample): for the message whose field magnitude spans
`2 ^ 32 + 1` bytes, the strict 6-byte prefix of its encoding decodes
successfully to a fabricated message (`ClientPublicKey 1`) instead of
failing, because the truncated `u32` length prefix declares a 1-byte
payload that the prefix fully contains. -/
theorem from_bytes_accepts_truncated_huge :
    6 < (DHMessage.to_bytes (.ClientPublicKey ((256 ^ 2 ^ 32 : Nat) : Int))).length
    ∧ DHMessage.from_bytes
        ((DHMessage.to_bytes (.ClientPublicKey ((256 ^ 2 ^ 32 : Nat) : Int))).take 6)
      = some (.ClientPublicKey 1) := by
  constructor
  · rw [to_bytes_huge_field, List.length_cons, huge_block_length]
    omega
  · rw [to_bytes_huge_field]
    have htake : ((2 : Nat) :: ([0, 0, 0, 1] ++ (1 :: List.replicate (2 ^ 32) 0))).take 6
        = [2, 0, 0, 0, 1, 1] := rfl
    rw [htake]
    decide

/-! ### `is_prime` (src/crypto/crypto.rs, lines 6-46)

Miller-Rabin with `rounds` uniformly drawn witnesses.  The random draws
`rng.gen_bigint_range(&2, &(n-1))` are modelled as an explicit stream
`ws : Nat → Int` of the values drawn (one per round), each in `[2, n-2]`.
-/

/-- The `while &d % 2 == 0 { d /= 2; r += 1 }` loop that factors
`n − 1 = d · 2^r`.  The first argument is iteration fuel; the loop is only
ever entered with `d = n − 1 ≥ 4` (for which `d` itself is ample fuel, as
`d` strictly decreases), and the source loop would not terminate on
`d = 0`, which never occurs. -/
def splitFactor : Nat → Nat → Nat → Nat × Nat
  | 0, d, r => (d, r)
  | fuel + 1, d, r => if d % 2 = 0 ∧ d ≠ 0 then splitFactor fuel (d / 2) (r + 1) else (d, r)

/-- The inner squaring loop `for _ in 0..r-1 { x = mod_pow(&x, &2, n); if
x == n - 1 { continue 'witness_loop } }` followed by `return false`:
squares up to `k` times, passing the round as soon as `n − 1` appears. -/
def squareStep (n x : Int) : Nat → Bool
  | 0 => false
  | k + 1 =>
    let x2 := mod_pow x 2 n
    if x2 = n - 1 then true else squareStep n x2 k

/-- One round of the `'witness_loop` with witness `a`. -/
def mrRound (n : Int) (d : Nat) (r : Nat) (a : Int) : Bool :=
  let x := mod_pow a (d : Int) n
  if x = 1 ∨ x = n - 1 then true
  else squareStep n x (r - 1)

/-- `is_prime` from src/crypto/crypto.rs: early returns for `n < 2`,
`n ∈ {2, 3}` and even `n`; otherwise `rounds` Miller-Rabin rounds with the
drawn witnesses, returning false as soon as one round proves
compositeness. -/
def is_prime (n : Int) (rounds : Nat) (ws : Nat → Int) : Bool :=
  if n < 2 then false
  else if n = 2 ∨ n = 3 then true
  else if Int.tmod n 2 = 0 then false
  else
    let dr := splitFactor (n - 1).toNat (n - 1).toNat 0
    (List.range rounds).all fun i => mrRound n dr.1 dr.2 (ws i)

/-- C5 (counterexample): 2047 = 23 · 89 is composite but a strong
pseudoprime to base 2: with `rounds = 1` and the witness draw 2 (a legal
draw from `[2, n-2]`), `is_prime` returns true. -/
theorem is_prime_accepts_composite_2047 :
    is_prime 2047 1 (fun _ => 2) = true ∧ ¬ Nat.Prime 2047 ∧ (2047 : Nat) < 10000
      ∧ (2 : Int) ≤ 2 ∧ (2 : Int) ≤ 2047 - 2 := by
  refine ⟨by decide, ?_, by decide, by decide, by decide⟩
  have h : (2047 : Nat) = 23 * 89 := by norm_num
  rw [h]
  exact Nat.not_prime_mul (by norm_num) (by norm_num)

theorem splitFactor_go (fuel : Nat) : ∀ (d r₀ : Nat), d ≠ 0 → d ≤ fuel →
    ∃ d' s : Nat, splitFactor fuel d r₀ = (d', r₀ + s) ∧ d' * 2 ^ s = d ∧ d' ≠ 0
      ∧ (d % 2 = 0 → 1 ≤ s) := by
  induction fuel with
  | zero =>
    intro d r₀ h0 hle
    omega
  | succ f ihf =>
    intro d r₀ h0 hle
    show ∃ d' s, (if d % 2 = 0 ∧ d ≠ 0 then splitFactor f (d / 2) (r₀ + 1)
      else (d, r₀)) = (d', r₀ + s) ∧ _
    by_cases hc : d % 2 = 0 ∧ d ≠ 0
    · obtain ⟨d', s, heq, hval, hne, _⟩ :=
        ihf (d / 2) (r₀ + 1) (by omega) (by omega)
      refine ⟨d', s + 1, ?_, ?_, hne, fun _ => by omega⟩
      · rw [if_pos hc, heq]
        congr 1
        omega
      · have h2 : d' * 2 ^ s * 2 = d / 2 * 2 := by rw [hval]
        have h3 : d' * 2 ^ (s + 1) = d' * 2 ^ s * 2 := by rw [pow_succ]; ring
        omega
    · refine ⟨d, 0, ?_, by rw [pow_zero, mul_one], h0, fun he => absurd ⟨he, h0⟩ hc⟩
      rw [if_neg hc, Nat.add_zero]

/-- The squaring loop hits `n − 1` whenever some square in the chain,
within its iteration budget, is congruent to `n − 1`. -/
theorem squareStep_reaches (n : Int) (hn : 2 ≤ n) :
    ∀ (k : Nat) (x : Int), 0 ≤ x → x < n →
      (∃ j : Nat, 1 ≤ j ∧ j ≤ k ∧ (x ^ 2 ^ j) % n = n - 1) →
      squareStep n x k = true := by
  intro k
  induction k with
  | zero =>
    rintro x _ _ ⟨j, hj1, hj0, _⟩
    omega
  | succ m ihm =>
    rintro x hx0 hxn ⟨j, hj1, hjk, hjval⟩
    have hx2 : mod_pow x ((2 : Nat) : Int) n = (x ^ 2) % n :=
      @mod_pow_eq_emod x n 2 hx0 hn
    have hx2' : mod_pow x 2 n = (x ^ 2) % n := hx2
    unfold squareStep
    simp only [hx2']
    by_cases hhit : (x ^ 2) % n = n - 1
    · rw [if_pos hhit]
    · rw [if_neg hhit]
      have hj2 : 2 ≤ j := by
        rcases Nat.lt_or_ge j 2 with hj | hj
        · interval_cases j
          exact absurd (by simpa using hjval) hhit
        · exact hj
      apply ihm ((x ^ 2) % n) (Int.emod_nonneg _ (by omega)) (Int.emod_lt_of_pos _ (by omega))
      refine ⟨j - 1, by omega, by omega, ?_⟩
      have hcong : Int.ModEq n (((x ^ 2) % n) ^ 2 ^ (j - 1)) (x ^ 2 ^ j) := by
        have h1 : Int.ModEq n ((x ^ 2) % n) (x ^ 2) := Int.mod_modEq _ _
        have h2 := h1.pow (2 ^ (j - 1))
        have hexp : (x ^ 2) ^ 2 ^ (j - 1) = x ^ 2 ^ j := by
          rw [← pow_mul]
          congr 1
          have : 2 ^ j = 2 ^ (j - 1 + 1) := by congr 1; omega
          rw [this, pow_succ]
          ring
        rwa [hexp] at h2
      rw [hcong.eq, hjval]

/-- When the exponent chain of a non-zero element reaches 1, either its
start is already 1, or `-1` appears somewhere strictly before the end. -/
theorem mr_chain {p : Nat} [Fact p.Prime] (a : ZMod p) :
    ∀ (d r : Nat), a ^ (d * 2 ^ r) = 1 →
      a ^ d = 1 ∨ ∃ i : Nat, i < r ∧ a ^ (d * 2 ^ i) = -1 := by
  intro d r
  induction r with
  | zero =>
    intro h
    left
    simpa using h
  | succ m ihm =>
    intro h
    have hsq : a ^ (d * 2 ^ m) * a ^ (d * 2 ^ m) = 1 := by
      rw [← pow_add]
      have : d * 2 ^ m + d * 2 ^ m = d * 2 ^ (m + 1) := by
        rw [pow_succ]
        ring
      rw [this]
      exact h
    rcases mul_self_eq_one_iff.mp hsq with h1 | h1
    · rcases ihm h1 with h2 | ⟨i, hi, h2⟩
      · exact Or.inl h2
      · exact Or.inr ⟨i, by omega, h2⟩
    · exact Or.inr ⟨m, by omega, h1⟩

theorem intCast_emod_zmod (p : Nat) (x : Int) :
    (((x % (p : Int)) : Int) : ZMod p) = (x : ZMod p) := by
  rw [ZMod.intCast_eq_intCast_iff]
  exact Int.mod_modEq x (p : Int)

theorem emod_eq_of_zmod_eq {p : Nat} (_hp : 2 ≤ p) (x y : Int)
    (h : (x : ZMod p) = (y : ZMod p)) (hy0 : 0 ≤ y) (hyp : y < (p : Int)) :
    x % (p : Int) = y := by
  have h2 : Int.ModEq (p : Int) x y := (ZMod.intCast_eq_intCast_iff x y p).mp h
  calc x % (p : Int) = y % (p : Int) := h2
  _ = y := Int.emod_eq_of_lt hy0 hyp

theorem intCast_p_sub_one_zmod (p : Nat) : (((p : Int) - 1 : Int) : ZMod p) = -1 := by
  push_cast
  rw [ZMod.natCast_self]
  ring

/-- Miller-Rabin never rejects a prime: with `n` an odd prime at least 5
and `n − 1 = d · 2^r`, every witness in `[2, n−2]` passes its round. -/
theorem mrRound_prime (p : Nat) [hfact : Fact p.Prime] (hp5 : 5 ≤ p)
    (d r : Nat) (hdr : d * 2 ^ r = p - 1) (hr1 : 1 ≤ r)
    (a : Int) (ha2 : 2 ≤ a) (han : a ≤ (p : Int) - 2) :
    mrRound (p : Int) d r a = true := by
  have hp2 : (2 : Int) ≤ (p : Int) := by exact_mod_cast (by omega : 2 ≤ p)
  have hx : mod_pow a ((d : Nat) : Int) (p : Int) = (a ^ d) % (p : Int) :=
    @mod_pow_eq_emod a (p : Int) d (by omega) hp2
  have hα0 : (a : ZMod p) ≠ 0 := by
    rw [Ne, ZMod.intCast_zmod_eq_zero_iff_dvd]
    intro hdvd
    have hle := Int.le_of_dvd (by omega) hdvd
    omega
  have hferm : (a : ZMod p) ^ (p - 1) = 1 := ZMod.pow_card_sub_one_eq_one hα0
  rw [← hdr] at hferm
  unfold mrRound
  rcases mr_chain (a : ZMod p) d r hferm with hcase | ⟨i, hir, hcase⟩
  · have hx1 : (a ^ d) % (p : Int) = 1 := by
      apply emod_eq_of_zmod_eq (by omega) _ _ ?_ (by omega) (by omega)
      push_cast
      exact hcase
    rw [hx, hx1, if_pos (Or.inl rfl)]
  · rcases Nat.eq_zero_or_pos i with hi0 | hipos
    · subst hi0
      have hx1 : (a ^ d) % (p : Int) = (p : Int) - 1 := by
        apply emod_eq_of_zmod_eq (by omega) _ _ ?_ (by omega) (by omega)
        rw [intCast_p_sub_one_zmod]
        push_cast
        have : d * 2 ^ 0 = d := by omega
        rw [this] at hcase
        exact hcase
      rw [hx, hx1, if_pos (Or.inr rfl)]
    · by_cases hhit : (a ^ d) % (p : Int) = 1 ∨ (a ^ d) % (p : Int) = (p : Int) - 1
      · rw [hx, if_pos hhit]
      · rw [hx, if_neg hhit]
        apply squareStep_reaches (p : Int) hp2 (r - 1) _
          (Int.emod_nonneg _ (by omega)) (Int.emod_lt_of_pos _ (by omega))
        refine ⟨i, hipos, by omega, ?_⟩
        apply emod_eq_of_zmod_eq (by omega) _ _ ?_ (by omega) (by omega)
        rw [intCast_p_sub_one_zmod]
        push_cast
        rw [← pow_mul]
        exact hcase

/-- C5 (amended: no false negatives): for every prime `n` below 10000,
every `rounds ≥ 1` and every possible sequence of witness draws from
`[2, n−2]`, `is_prime(n, rounds)` returns true.  (The composite direction
of the original claim fails: an unlucky witness sequence can make a
composite pass, see the counterexample.) -/
theorem is_prime_true_on_primes (p : Nat) (hsmall : p < 10000) (hp : p.Prime)
    (rounds : Nat) (_hr : 1 ≤ rounds) (ws : Nat → Int)
    (hws : ∀ i, 2 ≤ ws i ∧ ws i ≤ (p : Int) - 2) :
    is_prime (p : Int) rounds ws = true := by
  haveI hfact : Fact p.Prime := ⟨hp⟩
  have hp2 : 2 ≤ p := hp.two_le
  unfold is_prime
  rw [if_neg (by omega)]
  by_cases hp23 : (p : Int) = 2 ∨ (p : Int) = 3
  · rw [if_pos hp23]
  · rw [if_neg hp23]
    have hp5 : 5 ≤ p := by
      have h4 : p ≠ 4 := by
        intro h
        subst h
        exact absurd hp (by decide)
      omega
    have hodd : p % 2 = 1 := Nat.odd_iff.mp (hp.odd_of_ne_two (by omega))
    have htm : Int.tmod (p : Int) 2 = 1 := by
      rw [Int.tmod_eq_emod (by positivity) (by norm_num)]
      omega
    rw [if_neg (by rw [htm]; omega)]
    have hd' : ((p : Int) - 1).toNat = p - 1 := by omega
    simp only [hd', List.all_eq_true, List.mem_range, decide_eq_true_eq]
    intro i _hi
    obtain ⟨d, s, heq, hval, hdne, hs1⟩ :=
      splitFactor_go (p - 1) (p - 1) 0 (by omega) le_rfl
    rw [heq]
    show mrRound (p : Int) d (0 + s) (ws i) = true
    have hsplit : d * 2 ^ (0 + s) = p - 1 := by
      rw [Nat.zero_add]
      exact hval
    exact mrRound_prime p hp5 d (0 + s) hsplit
      (by have := hs1 (by omega); omega) (ws i) (hws i).1 (hws i).2

theorem is_prime_true_on_primes_witness :
    (5 : Nat) < 10000 ∧ Nat.Prime 5 ∧ (1 : Nat) ≤ 1 ∧
      (∀ i : Nat, 2 ≤ (fun _ : Nat => (2 : Int)) i ∧
        (fun _ : Nat => (2 : Int)) i ≤ ((5 : Nat) : Int) - 2) ∧
      is_prime ((5 : Nat) : Int) 1 (fun _ => 2) = true :=
  ⟨by norm_num, by norm_num, le_rfl, fun i => ⟨by norm_num, by norm_num⟩,
    is_prime_true_on_primes 5 (by norm_num) (by norm_num) 1 le_rfl (fun _ => 2)
      (fun i => ⟨by norm_num, by norm_num⟩)⟩

/-! ### Responder handshake (src/network/server.rs, `handle_client`, lines 84-167)

The transport is abstracted: `reads i` is the result of the `i`-th
`read_message` call (`Except.error` for an I/O failure propagated by `?`,
`Except.ok none` for an unrecognized tag, `Except.ok (some m)` for a
decoded message), and `writes j` tells whether the `j`-th `write_message`
call succeeds.  The outcome records the messages successfully written, the
final `client_public_key` and `shared_secret` fields of the
`DHConnection`, and whether `handle_client` returned `Ok`. -/
structure SessionOutcome where
  sent : List DHMessage
  client_public_key : Option Int
  shared_secret : Option Int
  isOk : Bool
deriving DecidableEq, Repr

/-- `handle_client`: receive `ClientHello`, send `ServerHello`, receive
`ClientPublicKey`, send `ServerPublicKey`, receive `Done`, then compute the
shared secret `mod_pow(X, secret, p)`.  A wrong message at any step
returns `Ok(())` without a secret; an I/O error returns `Err`. -/
def handle_client (prime base secret : Int)
    (reads : Nat → Except Unit (Option DHMessage))
    (writes : Nat → Bool) : SessionOutcome :=
  match reads 0 with
  | .error _ => ⟨[], none, none, false⟩
  | .ok (some .ClientHello) =>
    let server_hello := DHMessage.ServerHello prime base
    if writes 0 then
      match reads 1 with
      | .error _ => ⟨[server_hello], none, none, false⟩
      | .ok (some (.ClientPublicKey x)) =>
        let server_public_key := compute_public_key secret base prime
        let server_key_msg := DHMessage.ServerPublicKey server_public_key
        if writes 1 then
          match reads 2 with
          | .error _ => ⟨[server_hello, server_key_msg], some x, none, false⟩
          | .ok (some .Done) =>
            let shared_secret := mod_pow x secret prime
            ⟨[server_hello, server_key_msg], some x, some shared_secret, true⟩
          | .ok _ => ⟨[server_hello, server_key_msg], some x, none, true⟩
        else ⟨[server_hello], some x, none, false⟩
      | .ok _ => ⟨[server_hello], none, none, true⟩
    else ⟨[], none, none, false⟩
  | .ok _ => ⟨[], none, none, true⟩

/-- C7: the responder's `shared_secret` is `Some` only if the messages
received were exactly `ClientHello`, then `ClientPublicKey`, then `Done`,
in that order; every aborted or partial run leaves it `None`. -/
theorem shared_secret_only_after_full_handshake
    (prime base secret : Int) (reads : Nat → Except Unit (Option DHMessage))
    (writes : Nat → Bool) (s : Int)
    (h : (handle_client prime base secret reads writes).shared_secret = some s) :
    ∃ x : Int, reads 0 = .ok (some .ClientHello)
      ∧ reads 1 = .ok (some (.ClientPublicKey x))
      ∧ reads 2 = .ok (some .Done) := by
  unfold handle_client at h
  split at h
  · simp at h
  · rename_i heq0
    split at h
    · split at h
      · simp at h
      · rename_i x heq1
        split at h
        · split at h
          · simp at h
          · rename_i heq2
            exact ⟨x, heq0, heq1, heq2⟩
          · simp at h
        · simp at h
      · simp at h
    · simp at h
  · simp at h

/-- A concrete transcript of a complete handshake, used to witness C7. -/
def fullRunReads : Nat → Except Unit (Option DHMessage) :=
  fun i => if i = 0 then .ok (some .ClientHello)
    else if i = 1 then .ok (some (.ClientPublicKey 4))
    else .ok (some .Done)

theorem shared_secret_only_after_full_handshake_witness :
    (handle_client 5 2 3 fullRunReads (fun _ => true)).shared_secret
        = some (mod_pow 4 3 5)
    ∧ ∃ x : Int, fullRunReads 0 = .ok (some .ClientHello)
        ∧ fullRunReads 1 = .ok (some (.ClientPublicKey x))
        ∧ fullRunReads 2 = .ok (some .Done) :=
  ⟨by decide,
    shared_secret_only_after_full_handshake 5 2 3 fullRunReads (fun _ => true)
      (mod_pow 4 3 5) (by decide)⟩

/-- C8: when the first message read is anything other than `ClientHello`
(for example `Done`, or an unrecognized tag decoded as no message),
`handle_client` returns `Ok` (no error to the process), computes no shared
secret, stores no client key, and writes nothing on the stream. -/
theorem first_message_violation_aborts_ok
    (prime base secret : Int) (reads : Nat → Except Unit (Option DHMessage))
    (writes : Nat → Bool) (m : Option DHMessage)
    (h0 : reads 0 = .ok m) (hm : m ≠ some .ClientHello) :
    handle_client prime base secret reads writes
      = ⟨[], none, none, true⟩ := by
  unfold handle_client
  rw [h0]
  rcases m with _ | m'
  · rfl
  cases m' with
  | ClientHello => exact absurd rfl hm
  | ServerHello a b => rfl
  | ClientPublicKey a => rfl
  | ServerPublicKey a => rfl
  | Done => rfl

theorem first_message_violation_aborts_ok_witness :
    (fun _ : Nat => (.ok (some .Done) : Except Unit (Option DHMessage))) 0
        = .ok (some .Done)
    ∧ handle_client 5 2 3 (fun _ => .ok (some .Done)) (fun _ => true)
        = ⟨[], none, none, true⟩ :=
  ⟨rfl, first_message_violation_aborts_ok 5 2 3 (fun _ => .ok (some .Done))
    (fun _ => true) (some .Done) rfl (by decide)⟩

/-! ### Parameter generation (src/crypto/crypto.rs, lines 66-102)

`generate_random_prime` and `find_generator` loop over random draws until
a candidate is accepted; the draws (`rng.gen_bigint(bit_length)`, a signed
integer of at most `bit_length` magnitude bits, and
`rng.gen_bigint_range(&2, &(p-1))`, uniform in `[2, p-2]`) are modelled as
explicit streams, and the unbounded `loop` as a fuel-indexed recursion
returning `none` when the fuel is exhausted before a candidate passes. -/

/-- The candidate built in one iteration of `generate_random_prime`'s loop:
make the draw odd (`p += 1` if even), then `set_bit(bit_length - 1, true)`
(`num_bigint` sets bits on the two's-complement view, i.e. `Int.lor` with
the bit's power of two). -/
def prime_candidate (bit_length : Nat) (draw : Int) : Int :=
  Int.lor (if Int.tmod draw 2 = 0 then draw + 1 else draw)
    ((2 : Int) ^ (bit_length - 1))

/-- `generate_random_prime`'s trial loop: test each candidate with 64
Miller-Rabin rounds (using witness stream `wss k` for the `k`-th
candidate) and return the first that passes. -/
def generate_random_prime (bit_length : Nat) (draws : Nat → Int)
    (wss : Nat → Nat → Int) : Nat → Nat → Option Int
  | _, 0 => none
  | k, fuel + 1 =>
    if is_prime (prime_candidate bit_length (draws k)) 64 (wss k) then
      some (prime_candidate bit_length (draws k))
    else generate_random_prime bit_length draws wss (k + 1) fuel

/-- `find_generator`'s loop: `exp = (p - 1) / 2` (`BigInt` division is
truncated, `Int.tdiv`); accept the first draw `g` with
`mod_pow(g, exp, p) ≠ 1`. -/
def find_generator (p : Int) (draws : Nat → Int) : Nat → Nat → Option Int
  | _, 0 => none
  | k, fuel + 1 =>
    if mod_pow (draws k) (Int.tdiv (p - 1) 2) p ≠ 1 then some (draws k)
    else find_generator p draws (k + 1) fuel

theorem generate_random_prime_spec (bit_length : Nat) (draws : Nat → Int)
    (wss : Nat → Nat → Int) : ∀ (fuel k : Nat) (p : Int),
    generate_random_prime bit_length draws wss k fuel = some p →
    ∃ j : Nat, p = prime_candidate bit_length (draws j)
      ∧ is_prime p 64 (wss j) = true := by
  intro fuel
  induction fuel with
  | zero =>
    intro k p h
    exact absurd h (by simp [generate_random_prime])
  | succ f ihf =>
    intro k p h
    unfold generate_random_prime at h
    split at h
    · rename_i hacc
      injection h with h
      subst h
      exact ⟨k, rfl, hacc⟩
    · exact ihf (k + 1) p h

theorem find_generator_spec (p : Int) (draws : Nat → Int) :
    ∀ (fuel k : Nat) (g : Int), find_generator p draws k fuel = some g →
    ∃ j : Nat, g = draws j ∧ mod_pow g (Int.tdiv (p - 1) 2) p ≠ 1 := by
  intro fuel
  induction fuel with
  | zero =>
    intro k g h
    exact absurd h (by simp [find_generator])
  | succ f ihf =>
    intro k g h
    unfold find_generator at h
    split at h
    · rename_i hacc
      injection h with h
      subst h
      exact ⟨k, rfl, hacc⟩
    · exact ihf (k + 1) g h

theorem is_prime_two_le {n : Int} {r : Nat} {ws : Nat → Int}
    (h : is_prime n r ws = true) : 2 ≤ n := by
  by_contra hlt
  unfold is_prime at h
  rw [if_pos (by omega)] at h
  exact absurd h (by simp)

theorem lor_neg_of_neg_left (x : Int) (n : Nat) (hx : x < 0) :
    Int.lor x (n : Int) < 0 := by
  cases x with
  | ofNat k => exact absurd hx (Int.ofNat_nonneg k).not_lt
  | negSucc m => exact Int.negSucc_lt_zero _

/-- Any accepted candidate (in particular any one that passed `is_prime`,
hence is at least 2) built from a draw of at most `bit_length` magnitude
bits is odd, has bit `bit_length − 1` set, and stays below
`2 ^ bit_length`. -/
theorem prime_candidate_props (bit_length : Nat) (hbl : 2 ≤ bit_length)
    (d : Int) (_hd1 : -(2 ^ bit_length) < d) (hd2 : d < 2 ^ bit_length)
    (hpos : 2 ≤ prime_candidate bit_length d) :
    prime_candidate bit_length d % 2 = 1
      ∧ (prime_candidate bit_length d).natAbs.testBit (bit_length - 1) = true
      ∧ prime_candidate bit_length d < 2 ^ bit_length := by
  unfold prime_candidate at hpos ⊢
  set adj := if Int.tmod d 2 = 0 then d + 1 else d with hadj
  have hpow : ((2 : Int) ^ (bit_length - 1)) = ((2 ^ (bit_length - 1) : Nat) : Int) := by
    push_cast
    rfl
  have hadj0 : 0 ≤ adj := by
    by_contra hneg
    rw [hpow] at hpos
    have := lor_neg_of_neg_left adj (2 ^ (bit_length - 1)) (by omega)
    omega
  have hd0 : 0 ≤ d := by
    rcases lt_or_le d 0 with hdneg | hge
    · by_cases hev : Int.tmod d 2 = 0
      · have hadjval : adj = d + 1 := by rw [hadj, if_pos hev]
        have hd1' : d = -1 := by omega
        rw [hd1'] at hev
        exact absurd hev (by decide)
      · have hadjval : adj = d := by rw [hadj, if_neg hev]
        omega
    · exact hge
  have hadjodd : adj % 2 = 1 := by
    by_cases hev : Int.tmod d 2 = 0
    · have hadjval : adj = d + 1 := by rw [hadj, if_pos hev]
      rw [Int.tmod_eq_emod hd0 (by norm_num)] at hev
      omega
    · have hadjval : adj = d := by rw [hadj, if_neg hev]
      rw [Int.tmod_eq_emod hd0 (by norm_num)] at hev
      omega
  have h2bl : (2 : Int) ^ bit_length % 2 = 0 := by
    have : (2 : Int) ∣ 2 ^ bit_length := dvd_pow_self 2 (by omega)
    omega
  have hadjlt : adj < 2 ^ bit_length := by
    by_cases hev : Int.tmod d 2 = 0
    · have hadjval : adj = d + 1 := by rw [hadj, if_pos hev]
      rw [Int.tmod_eq_emod hd0 (by norm_num)] at hev
      omega
    · have hadjval : adj = d := by rw [hadj, if_neg hev]
      omega
  obtain ⟨a, ha⟩ := Int.eq_ofNat_of_zero_le hadj0
  have hcast : Int.lor adj ((2 : Int) ^ (bit_length - 1))
      = ((a ||| 2 ^ (bit_length - 1) : Nat) : Int) := by
    rw [ha, hpow]
    rfl
  have haodd : a % 2 = 1 := by omega
  have halt : a < 2 ^ bit_length := by
    have hc : ((2 ^ bit_length : Nat) : Int) = (2 : Int) ^ bit_length := by
      push_cast
      rfl
    omega
  have hblt : (2 : Nat) ^ (bit_length - 1) < 2 ^ bit_length := by
    have h := Nat.pow_lt_pow_succ (a := 2) (n := bit_length - 1) one_lt_two
    have : bit_length - 1 + 1 = bit_length := by omega
    rwa [this] at h
  have horlt : a ||| 2 ^ (bit_length - 1) < 2 ^ bit_length :=
    Nat.or_lt_two_pow halt hblt
  have horbit : (a ||| 2 ^ (bit_length - 1)).testBit (bit_length - 1) = true := by
    rw [Nat.testBit_or, Nat.testBit_two_pow_self, Bool.or_true]
  have horodd : (a ||| 2 ^ (bit_length - 1)) % 2 = 1 := by
    have h0 : (a ||| 2 ^ (bit_length - 1)).testBit 0 = true := by
      rw [Nat.testBit_or, Nat.testBit_zero]
      have : decide (a % 2 = 1) = true := by
        rw [decide_eq_true_eq]
        exact haodd
      rw [this, Bool.true_or]
    rw [Nat.testBit_zero, decide_eq_true_eq] at h0
    exact h0
  refine ⟨?_, ?_, ?_⟩
  · rw [hcast]
    omega
  · rw [hcast, Int.natAbs_ofNat]
    exact horbit
  · rw [hcast]
    have hc : ((2 ^ bit_length : Nat) : Int) = (2 : Int) ^ bit_length := by
      push_cast
      rfl
    omega

/-- C6: on every sequence of draws on which parameter generation returns,
the returned `p` is odd, has bit `bit_length − 1` set and is below
`2 ^ bit_length`, and passed `is_prime` with 64 rounds (for the witness
draws of its accepting iteration); the returned `g` lies in `[2, p − 2]`
and satisfies `mod_pow(g, (p − 1) / 2, p) ≠ 1`. -/
theorem generate_dh_params_postcondition
    (bit_length : Nat) (hbl : 2 ≤ bit_length)
    (draws : Nat → Int)
    (hdraws : ∀ k, -(2 ^ bit_length) < draws k ∧ draws k < 2 ^ bit_length)
    (wss : Nat → Nat → Int) (pfuel : Nat) (p : Int)
    (hp : generate_random_prime bit_length draws wss 0 pfuel = some p)
    (gdraws : Nat → Int)
    (hgdraws : ∀ k, 2 ≤ gdraws k ∧ gdraws k ≤ p - 2)
    (gfuel : Nat) (g : Int)
    (hg : find_generator p gdraws 0 gfuel = some g) :
    p % 2 = 1
      ∧ p.natAbs.testBit (bit_length - 1) = true
      ∧ p < 2 ^ bit_length
      ∧ (∃ ws : Nat → Int, is_prime p 64 ws = true)
      ∧ 2 ≤ g ∧ g ≤ p - 2
      ∧ mod_pow g (Int.tdiv (p - 1) 2) p ≠ 1 := by
  obtain ⟨j, hpc, hprime⟩ := generate_random_prime_spec bit_length draws wss pfuel 0 p hp
  have hpos : 2 ≤ p := is_prime_two_le hprime
  rw [hpc] at hpos
  obtain ⟨hodd, hbit, hlt⟩ := prime_candidate_props bit_length hbl (draws j)
    (hdraws j).1 (hdraws j).2 hpos
  obtain ⟨i, hgd, hgtest⟩ := find_generator_spec p gdraws gfuel 0 g hg
  subst hpc
  subst hgd
  exact ⟨hodd, hbit, hlt, ⟨wss j, hprime⟩, (hgdraws i).1, (hgdraws i).2, hgtest⟩

theorem generate_dh_params_postcondition_witness :
    (5 : Int) % 2 = 1
      ∧ (5 : Int).natAbs.testBit 2 = true
      ∧ (5 : Int) < 2 ^ 3
      ∧ (∃ ws : Nat → Int, is_prime 5 64 ws = true)
      ∧ (2 : Int) ≤ 2 ∧ (2 : Int) ≤ 5 - 2
      ∧ mod_pow 2 (Int.tdiv (5 - 1) 2) 5 ≠ 1 :=
  generate_dh_params_postcondition 3 (by norm_num) (fun _ => 5)
    (fun _ => ⟨by norm_num, by norm_num⟩) (fun _ _ => 2) 1 5 (by decide)
    (fun _ => 2) (fun _ => ⟨by norm_num, by norm_num⟩) 1 2 (by decide)
